import Mathlib

/-
Shallow embedding of `src/makefile/rule_map.rs` from the `omake` repository,
together with theorems settling the frozen claims about it.

Modelling conventions:
* Timestamps are natural numbers counting seconds since `UNIX_EPOCH`
  (so `UNIX_EPOCH` itself is `0`, the earliest representable timestamp
  of the model).
* The filesystem is a map from path to optional metadata (`none` models
  `fs::metadata` returning `Err`, i.e. a missing or unreadable path); the
  metadata in turn carries `metadata.modified().ok()` as an `Option Nat`.
* Spawned shell processes are an oracle `World.run`, which consumes the
  current filesystem and the invocation (`shell`, flags, recipe line) and
  yields the process outcome plus the filesystem after the process ran.
  `World.now` is the clock read by `SystemTime::now()`.
* Observable actions (stdout echoes of recipe lines, process spawns,
  `log_info` / `log_warn` messages, and each `rule.execute(makefile)`
  invocation) are recorded as a trace of events in the state `St`.
* `RuleMap::execute` recurses with no termination guarantee in the source
  (there is no cycle detection), so the embedding takes a fuel parameter;
  exhausting fuel is reported as the distinct outcome `fuelOut`, and the
  `unwrap()` panic on an empty recipe line as `panic` (both carry the
  state at the moment they occur).
-/

namespace Omake

/-- Outcome of `Command::status()` combined with `ExitStatus::code()`:
either the spawn itself failed (`Err` from `status()`), or the process
exited with a code, or it was terminated by a signal (`code()` is `None`). -/
inductive SpawnResult where
  | spawnErr (msg : String)
  | exited (code : Int)
  | killed
deriving DecidableEq

/-- File metadata, as far as `get_mtime` consumes it: the value of
`metadata.modified().ok()`. -/
structure FsEntry where
  modified : Option Nat
deriving DecidableEq

/-- The filesystem visible through `fs::metadata`: `none` models a path
whose metadata cannot be read (nonexistent or permission failure). -/
abbrev FS : Type := String → Option FsEntry

/-- The subset of the CLI `Args` consumed by this core. -/
structure Args where
  old_file : List String
  new_file : List String
  always_make : Bool
  just_print : Bool
  ignore_errors : Bool

/-- The makefile as seen by this core: a resolved variable table and the
parsed command-line options. -/
structure Makefile where
  vars : String → String
  args : Args

/-- The ambient world: the clock and the behaviour of spawned processes.
`run fs shell flags line` returns the process outcome and the filesystem
after the process (a recipe command may create or delete files). -/
structure World where
  now : Nat
  run : FS → String → List String → String → SpawnResult × FS

/-- Source-location metadata (`Context`); opaque to the core's logic. -/
structure Context where
  id : Nat
deriving DecidableEq

def Context.new : Context := ⟨0⟩

/-- A structured error (`MakeError`): a message plus the originating
source context. -/
structure MakeError where
  msg : String
  context : Context
deriving DecidableEq

/-- Observable events emitted during insertion and execution. -/
inductive Event where
  | echo (line : String)
  | spawn (line : String)
  | info (msg : String)
  | warn (msg : String)
  | runRecipe (target : String) (i : Nat)
deriving DecidableEq

/-- Mutable state threaded through execution: the filesystem and the
trace of events so far. -/
structure St where
  fs : FS
  events : List Event

def St.addEvent (st : St) (e : Event) : St := ⟨st.fs, st.events ++ [e]⟩

/-- `get_mtime` (rule_map.rs lines 17-31): `none` when the path's metadata
cannot be read; otherwise `UNIX_EPOCH` for forced-old paths, one year in
the future for forced-new paths, else the reported modification time. -/
def get_mtime (w : World) (args : Args) (fs : FS) (file : String) : Option Nat :=
  match fs file with
  | some metadata =>
    if file ∈ args.old_file then
      some 0
    else if file ∈ args.new_file then
      some (w.now + 365 * 24 * 60 * 60)
    else
      metadata.modified
  | none => none

/-- A parsed rule (rule_map.rs lines 34-41). -/
structure Rule where
  targets : List String
  prerequisites : List String
  recipe : List String
  context : Context
  double_colon : Bool
deriving DecidableEq

/-- Results of `Rule::execute` / `RuleMap::execute`. -/
inductive ExecRes where
  | panic (st : St)
  | fuelOut (st : St)
  | done (st : St) (r : Except MakeError Unit)

/-- Results of the inner loops of `RuleMap::execute`, carrying the loop's
boolean (`should_execute` resp. `executed`) alongside. -/
inductive LoopRes where
  | panic (st : St)
  | fuelOut (st : St)
  | done (st : St) (flag : Bool) (r : Except MakeError Unit)

def ExecRes.isOkB : ExecRes → Bool
  | .done _ (.ok _) => true
  | _ => false

def ExecRes.isPanicB : ExecRes → Bool
  | .panic _ => true
  | _ => false

def ExecRes.eventsOf : ExecRes → Option (List Event)
  | .done st _ => some st.events
  | _ => none

/-- Rust's `str::split_whitespace` on the `.SHELLFLAGS` value. -/
def splitWhitespace (s : String) : List String :=
  (s.split Char.isWhitespace).filter (· ≠ "")

/-- The per-line loop of `Rule::execute` (rule_map.rs lines 53-90).
`line.chars().next().unwrap()` panics on an empty line, before the line is
echoed or any process is spawned for it. -/
def execLinesF (mk : Makefile) (w : World) (shell : String) (flags : List String)
    (ctx : Context) : List String → St → ExecRes
  | [], st => .done st (.ok ())
  | line :: rest, st =>
    match line.data with
    | [] => .panic st
    | c :: _ =>
      let command_modifier : Option Char :=
        if c = '@' ∨ c = '-' ∨ c = '+' then some c else none
      let st1 :=
        if command_modifier ≠ some '@' ∨ mk.args.just_print then
          st.addEvent (.echo line)
        else st
      if mk.args.just_print then
        execLinesF mk w shell flags ctx rest st1
      else
        let out := w.run st1.fs shell flags line
        let st2 : St := ⟨out.2, st1.events ++ [.spawn line]⟩
        match out.1 with
        | .spawnErr m => .done st2 (.error ⟨m, ctx⟩)
        | .exited code =>
          if command_modifier ≠ some '-' ∧ ¬ mk.args.ignore_errors then
            if code ≠ 0 then
              .done st2 (.error ⟨"Failed with code " ++ toString code ++ ".", ctx⟩)
            else
              execLinesF mk w shell flags ctx rest st2
          else
            execLinesF mk w shell flags ctx rest st2
        | .killed =>
          if command_modifier ≠ some '-' ∧ ¬ mk.args.ignore_errors then
            .done st2 (.error ⟨"Killed.", ctx⟩)
          else
            execLinesF mk w shell flags ctx rest st2

/-- `Rule::execute` (rule_map.rs lines 44-93): resolve `SHELL` and
`.SHELLFLAGS`, then run each recipe line in order. -/
def Rule.execute (r : Rule) (mk : Makefile) (w : World) (st : St) : ExecRes :=
  execLinesF mk w (mk.vars "SHELL") (splitWhitespace (mk.vars ".SHELLFLAGS"))
    r.context r.recipe st

/-- `by_target`: the map from target name to rule indices, modelled as an
association list (the `HashMap`'s iteration order is never observed). -/
abbrev ByTarget : Type := List (String × List Nat)

def btLookup (bt : ByTarget) (k : String) : Option (List Nat) :=
  (bt.find? (fun p => p.1 == k)).map (·.2)

def btInsert (bt : ByTarget) (k : String) (v : List Nat) : ByTarget :=
  bt ++ [(k, v)]

def btUpdate (bt : ByTarget) (k : String) (v : List Nat) : ByTarget :=
  bt.map (fun p => if p.1 == k then (k, v) else p)

/-- `RuleMap` (rule_map.rs lines 97-105). -/
structure RuleMap where
  rules : List Rule
  by_target : ByTarget

def RuleMap.new : RuleMap := ⟨[], []⟩

/-- Placeholder rule for out-of-range `getD` indexing (never reached under
the map's documented invariants). -/
def dummyRule : Rule := ⟨[], [], [], ⟨0⟩, false⟩

def colonConflictMsg : String :=
  "Cannot define rules using `:` and `::` on the same target."

def dupWarnMsg : String := "Ignoring duplicate definition."

def noRuleMsg (target : String) : String :=
  "No rule to make target '" ++ target ++ "'."

def upToDateOldMsg (target : String) : String :=
  "Target '" ++ target ++ "' is up to date (old)."

def upToDateMsg (target : String) : String :=
  "Target '" ++ target ++ "' is up to date."

/-- The per-target loop of `RuleMap::insert` (rule_map.rs lines 126-149).
`rulesAll` is `self.rules` after the new rule was pushed; `index` is the
new rule's handle. The stored index lists are never empty (doc comment at
lines 107-109), so `rule_indices.first().unwrap()` is modelled by `headD`.
Returns the updated map, the warnings emitted, and the result. -/
def insertTargets (rulesAll : List Rule) (index : Nat) (r : Rule) :
    List String → ByTarget → ByTarget × List Event × Except MakeError Unit
  | [], bt => (bt, [], .ok ())
  | t :: ts, bt =>
    match btLookup bt t with
    | none => insertTargets rulesAll index r ts (btInsert bt t [index])
    | some rule_indices =>
      let first := rulesAll.getD (rule_indices.headD 0) dummyRule
      if first.double_colon ≠ r.double_colon then
        (bt, [], .error ⟨colonConflictMsg, r.context⟩)
      else if r.double_colon then
        insertTargets rulesAll index r ts (btUpdate bt t (rule_indices ++ [index]))
      else
        let res0 := insertTargets rulesAll index r ts bt
        (res0.1, .warn dupWarnMsg :: res0.2.1, res0.2.2)

/-- `RuleMap::insert` (rule_map.rs lines 119-152): push the rule, then
index every one of its targets, validating colon syntax. On error the
partially updated map is returned (Rust mutates `self` in place). -/
def RuleMap.insert (m : RuleMap) (r : Rule) :
    RuleMap × List Event × Except MakeError Unit :=
  let index := m.rules.length
  let rulesAll := m.rules ++ [r]
  let out := insertTargets rulesAll index r r.targets m.by_target
  (⟨rulesAll, out.1⟩, out.2.1, out.2.2)

def Except.isOkB : Except MakeError Unit → Bool
  | .ok _ => true
  | .error _ => false

/-- Sequential insertion of a list of rules, recording whether every
single insertion returned `Ok`. -/
def insertAll (m : RuleMap) : List Rule → RuleMap × Bool
  | [] => (m, true)
  | r :: rs =>
    let out := m.insert r
    let res0 := insertAll out.1 rs
    (res0.1, Except.isOkB out.2.2 && res0.2)

/-- The prerequisite loop of `RuleMap::execute` (rule_map.rs lines
179-201), abstracted over the recursive call `recur`. Carries
`should_execute` and returns its final value. -/
def execPrereqsF (recur : String → St → ExecRes) (w : World) (args : Args)
    (target_mtime_opt : Option Nat) :
    List String → Bool → St → LoopRes
  | [], should_execute, st => .done st should_execute (.ok ())
  | prereq :: rest, should_execute, st =>
    if args.always_make then
      match recur prereq st with
      | .panic s => .panic s
      | .fuelOut s => .fuelOut s
      | .done st1 (.error e) => .done st1 should_execute (.error e)
      | .done st1 (.ok _) =>
        execPrereqsF recur w args target_mtime_opt rest should_execute st1
    else
      match get_mtime w args st.fs prereq with
      | none =>
        match recur prereq st with
        | .panic s => .panic s
        | .fuelOut s => .fuelOut s
        | .done st1 (.error e) => .done st1 should_execute (.error e)
        | .done st1 (.ok _) =>
          execPrereqsF recur w args target_mtime_opt rest true st1
      | some prereq_mtime =>
        match target_mtime_opt with
        | some target_mtime =>
          execPrereqsF recur w args target_mtime_opt rest
            (should_execute || decide (target_mtime < prereq_mtime)) st
        | none =>
          execPrereqsF recur w args target_mtime_opt rest should_execute st

/-- The rule loop of `RuleMap::execute` (rule_map.rs lines 173-207),
abstracted over the recursive call. Carries `executed` and returns its
final value. Each `rule.execute(makefile)` invocation is recorded as a
`runRecipe` event naming the target and the rule's handle. -/
def execRulesF (recur : String → St → ExecRes) (mk : Makefile) (w : World)
    (rules : List Rule) (target : String) (target_mtime_opt : Option Nat) :
    List Nat → Bool → St → LoopRes
  | [], executed, st => .done st executed (.ok ())
  | i :: rest, executed, st =>
    let rule := rules.getD i dummyRule
    match execPrereqsF recur w mk.args target_mtime_opt rule.prerequisites
        mk.args.always_make st with
    | .panic s => .panic s
    | .fuelOut s => .fuelOut s
    | .done st1 _ (.error e) => .done st1 executed (.error e)
    | .done st1 should_execute (.ok _) =>
      if target_mtime_opt.isNone || should_execute then
        match rule.execute mk w (st1.addEvent (.runRecipe target i)) with
        | .panic s => .panic s
        | .fuelOut s => .fuelOut s
        | .done st2 (.error e) => .done st2 executed (.error e)
        | .done st2 (.ok _) =>
          execRulesF recur mk w rules target target_mtime_opt rest true st2
      else
        execRulesF recur mk w rules target target_mtime_opt rest executed st1

/-- The body of `RuleMap::execute` (rule_map.rs lines 155-217) for one
target, abstracted over the recursive call used for prerequisites. -/
def executeBody (recur : String → St → ExecRes) (m : RuleMap) (mk : Makefile)
    (w : World) (target : String) (st : St) : ExecRes :=
  match btLookup m.by_target target with
  | none => .done st (.error ⟨noRuleMsg target, Context.new⟩)
  | some rule_indices =>
    let target_mtime_opt := get_mtime w mk.args st.fs target
    if target ∈ mk.args.old_file then
      .done (st.addEvent (.info (upToDateOldMsg target))) (.ok ())
    else
      match execRulesF recur mk w m.rules target target_mtime_opt
          rule_indices false st with
      | .panic s => .panic s
      | .fuelOut s => .fuelOut s
      | .done st1 _ (.error e) => .done st1 (.error e)
      | .done st1 executed (.ok _) =>
        if executed then .done st1 (.ok ())
        else .done (st1.addEvent (.info (upToDateMsg target))) (.ok ())

/-- `RuleMap::execute`, with fuel bounding the recursion depth. -/
def RuleMap.execute (m : RuleMap) (mk : Makefile) (w : World)
    (fuel : Nat) (target : String) (st : St) : ExecRes :=
  match fuel with
  | 0 => .fuelOut st
  | fuel' + 1 =>
    executeBody (fun t s => RuleMap.execute m mk w fuel' t s) m mk w target st

/-- The recipe executions for `target`, in order, read off a trace. -/
def recipeRuns (target : String) (evts : List Event) : List Nat :=
  evts.filterMap fun e =>
    match e with
    | .runRecipe t i => if t = target then some i else none
    | _ => none

def Event.isRunRecipe : Event → Bool
  | .runRecipe _ _ => true
  | _ => false

def Event.isWarn : Event → Bool
  | .warn _ => true
  | _ => false

/-- A world whose spawned processes never touch the filesystem. -/
def StaticRun (w : World) : Prop :=
  ∀ fs shell flags line, (w.run fs shell flags line).2 = fs

/-- The documented `RuleMap` well-formedness (doc comment at rule_map.rs
lines 107-109): every `by_target` entry is non-empty and every stored index
is in range. -/
def btWF (m : RuleMap) : Prop :=
  ∀ p ∈ m.by_target, p.2 ≠ [] ∧ ∀ i ∈ p.2, i < m.rules.length

/-- At most one handle is retained for any single-colon target. -/
def singleColonUnique (m : RuleMap) : Prop :=
  ∀ p ∈ m.by_target,
    (m.rules.getD (p.2.headD 0) dummyRule).double_colon = false → p.2.length ≤ 1

/-- The combined `by_target` invariant, relative to a rules store. -/
def btInv (rulesAll : List Rule) (bt : ByTarget) : Prop :=
  ∀ p ∈ bt, p.2 ≠ [] ∧ (∀ i ∈ p.2, i < rulesAll.length) ∧
    ((rulesAll.getD (p.2.headD 0) dummyRule).double_colon = false → p.2.length ≤ 1)

/- Concrete fixtures used by counterexamples and witnesses. -/

/-- A world whose processes all succeed and leave the filesystem alone. -/
def wStatic0 : World := ⟨100, fun fs _ _ _ => (.exited 0, fs)⟩

/-- A world whose every process is terminated by a signal. -/
def wKilled : World := ⟨100, fun fs _ _ _ => (.killed, fs)⟩

def argsNone : Args := ⟨[], [], false, false, false⟩

def mkPlain : Makefile := ⟨fun _ => "sh", argsNone⟩

def mkJustPrint : Makefile := ⟨fun _ => "sh", ⟨[], [], false, true, false⟩⟩

def mkOldT : Makefile := ⟨fun _ => "sh", ⟨["T"], [], false, false, false⟩⟩

/-- A filesystem with `T` modified at 5 and `P` at 10. -/
def fsTP : FS := fun f =>
  if f = "T" then some ⟨some 5⟩ else if f = "P" then some ⟨some 10⟩ else none

def stTP : St := ⟨fsTP, []⟩

def fsNone : FS := fun _ => none

def stNone : St := ⟨fsNone, []⟩

/-- A double-colon rule listing the same target twice. -/
def rDup : Rule := ⟨["T", "T"], ["P"], ["r"], ⟨7⟩, true⟩

def mDup : RuleMap := (RuleMap.new.insert rDup).1

def rSingle : Rule := ⟨["T"], ["P"], ["r"], ⟨2⟩, false⟩

def mSingle : RuleMap := (RuleMap.new.insert rSingle).1

/-- A rule whose only recipe line carries the `-` modifier. -/
def rDash : Rule := ⟨["t"], [], ["-boom"], ⟨1⟩, false⟩

def rPlainA : Rule := ⟨["t"], [], ["a"], ⟨0⟩, false⟩

/-- `T` depends on `Q`, and no rule produces `Q`. -/
def rTQ : Rule := ⟨["T"], ["Q"], ["r"], ⟨5⟩, false⟩

def mTQ : RuleMap := (RuleMap.new.insert rTQ).1

def rD1 : Rule := ⟨["T"], [], ["a"], ⟨1⟩, true⟩

def rD2 : Rule := ⟨["T"], [], ["b"], ⟨2⟩, true⟩

def rConflict : Rule := ⟨["T"], [], [], ⟨3⟩, true⟩

def rSingle2 : Rule := ⟨["T"], [], ["c"], ⟨4⟩, false⟩

def argsON : Args := ⟨["o"], ["n"], false, false, false⟩

def fsON : FS := fun f => if f = "a" then none else some ⟨some 3⟩

def rB : Rule := ⟨["B"], [], [], ⟨1⟩, false⟩

def mB : RuleMap := (RuleMap.new.insert rB).1

/-- A rule whose targets `A`, `B` hit the colon conflict only at `B`. -/
def rAB : Rule := ⟨["A", "B"], [], [], ⟨2⟩, true⟩

/- Basic lemmas about the embedding. -/

theorem RuleMap.execute_succ (m : RuleMap) (mk : Makefile) (w : World)
    (fuel : Nat) (target : String) (st : St) :
    RuleMap.execute m mk w (fuel + 1) target st
      = executeBody (RuleMap.execute m mk w fuel) m mk w target st := rfl

theorem RuleMap.execute_zero (m : RuleMap) (mk : Makefile) (w : World)
    (target : String) (st : St) :
    RuleMap.execute m mk w 0 target st = .fuelOut st := rfl

theorem stringData_nil {s : String} (h : s.data = []) : s = "" := by
  cases s; simp_all

@[simp] theorem St.addEvent_fs (st : St) (e : Event) :
    (st.addEvent e).fs = st.fs := rfl

@[simp] theorem St.addEvent_events (st : St) (e : Event) :
    (st.addEvent e).events = st.events ++ [e] := rfl

theorem btLookup_cons (p : String × List Nat) (bt : ByTarget) (k : String) :
    btLookup (p :: bt) k = if p.1 = k then some p.2 else btLookup bt k := by
  by_cases hp : p.1 = k
  · have hb : (p.1 == k) = true := by simpa using hp
    simp [btLookup, List.find?, hb, hp]
  · have hb : (p.1 == k) = false := by simpa using hp
    simp [btLookup, List.find?, hb, hp]

theorem btUpdate_cons (p : String × List Nat) (bt : ByTarget) (k : String)
    (v : List Nat) :
    btUpdate (p :: bt) k v = (if p.1 = k then (k, v) else p) :: btUpdate bt k v := by
  by_cases hp : p.1 = k
  · have hb : (p.1 == k) = true := by simpa using hp
    simp [btUpdate, hb, hp]
  · have hb : (p.1 == k) = false := by simpa using hp
    simp [btUpdate, hb, hp]

theorem btLookup_insert_self (bt : ByTarget) (k : String) (v : List Nat)
    (h : btLookup bt k = none) : btLookup (btInsert bt k v) k = some v := by
  induction bt with
  | nil => simp [btInsert, btLookup_cons]
  | cons p bt ih =>
    rw [btLookup_cons] at h
    by_cases hp : p.1 = k
    · rw [if_pos hp] at h; exact absurd h (by simp)
    · rw [if_neg hp] at h
      show btLookup (p :: btInsert bt k v) k = some v
      rw [btLookup_cons, if_neg hp]
      exact ih h

theorem btLookup_insert_ne (bt : ByTarget) (k k' : String) (v : List Nat)
    (h : k ≠ k') : btLookup (btInsert bt k v) k' = btLookup bt k' := by
  induction bt with
  | nil =>
    show btLookup [(k, v)] k' = btLookup [] k'
    rw [btLookup_cons]
    simp [h, btLookup]
  | cons p bt ih =>
    show btLookup (p :: btInsert bt k v) k' = btLookup (p :: bt) k'
    rw [btLookup_cons, btLookup_cons]
    by_cases hp : p.1 = k'
    · simp [hp]
    · simp only [hp, if_false, if_neg hp]
      exact ih

theorem btLookup_update_self (bt : ByTarget) (k : String) (v l : List Nat)
    (h : btLookup bt k = some l) : btLookup (btUpdate bt k v) k = some v := by
  induction bt with
  | nil => simp [btLookup] at h
  | cons p bt ih =>
    rw [btLookup_cons] at h
    rw [btUpdate_cons]
    by_cases hp : p.1 = k
    · rw [if_pos hp, btLookup_cons]; simp
    · rw [if_neg hp] at h
      rw [if_neg hp, btLookup_cons, if_neg hp]
      exact ih h

theorem btLookup_update_ne (bt : ByTarget) (k k' : String) (v : List Nat)
    (h : k ≠ k') : btLookup (btUpdate bt k v) k' = btLookup bt k' := by
  induction bt with
  | nil => rfl
  | cons p bt ih =>
    rw [btUpdate_cons, btLookup_cons, btLookup_cons]
    by_cases hp : p.1 = k
    · rw [if_pos hp]
      have h1 : ¬ ((k, v).1 = k') := by simpa using h
      have h2 : ¬ (p.1 = k') := by rw [hp]; simpa using h
      rw [if_neg h1, if_neg h2]
      exact ih
    · rw [if_neg hp]
      by_cases hq : p.1 = k'
      · rw [if_pos hq, if_pos hq]
      · rw [if_neg hq, if_neg hq]
        exact ih

theorem btLookup_mem {bt : ByTarget} {k : String} {l : List Nat}
    (h : btLookup bt k = some l) : ∃ p ∈ bt, p.1 = k ∧ p.2 = l := by
  rw [btLookup] at h
  rcases hf : bt.find? (fun p => p.1 == k) with _ | p
  · rw [hf] at h; simp at h
  · rw [hf] at h; simp at h
    exact ⟨p, List.mem_of_find?_eq_some hf, by simpa using List.find?_some hf, h⟩

theorem btUpdate_mem {bt : ByTarget} {k : String} {v : List Nat} {p : String × List Nat}
    (h : p ∈ btUpdate bt k v) : p = (k, v) ∨ p ∈ bt := by
  rw [btUpdate] at h
  rcases List.mem_map.1 h with ⟨q, hq, hqe⟩
  by_cases hqk : (q.1 == k) = true
  · rw [if_pos hqk] at hqe; exact Or.inl hqe.symm
  · rw [if_neg hqk] at hqe; exact Or.inr (hqe ▸ hq)

theorem btInsert_mem {bt : ByTarget} {k : String} {v : List Nat} {p : String × List Nat}
    (h : p ∈ btInsert bt k v) : p ∈ bt ∨ p = (k, v) := by
  rw [btInsert] at h
  simpa using List.mem_append.1 h


/-- C3: `get_mtime` resolves, in this precedence order: "absent" whenever the
path's metadata cannot be read (even for forced-old/forced-new paths);
otherwise the earliest representable timestamp (`UNIX_EPOCH`, i.e. `0`) when
the path is in the forced-old set; otherwise a timestamp one year in the
future when in the forced-new set; otherwise the filesystem's reported
last-modification time. -/
theorem get_mtime_precedence (w : World) (args : Args) (fs : FS) (file : String) :
    (fs file = none → get_mtime w args fs file = none) ∧
    (∀ e, fs file = some e → file ∈ args.old_file →
      get_mtime w args fs file = some 0) ∧
    (∀ e, fs file = some e → file ∉ args.old_file → file ∈ args.new_file →
      get_mtime w args fs file = some (w.now + 365 * 24 * 60 * 60)) ∧
    (∀ e, fs file = some e → file ∉ args.old_file → file ∉ args.new_file →
      get_mtime w args fs file = e.modified) :=
  ⟨fun h => by simp [get_mtime, h],
   fun e h h1 => by simp [get_mtime, h, h1],
   fun e h h1 h2 => by simp [get_mtime, h, h1, h2],
   fun e h h1 h2 => by simp [get_mtime, h, h1, h2]⟩

/-- C3 witness: the four precedence cases evaluated at concrete inputs
(`"a"` unreadable, `"o"` forced-old, `"n"` forced-new, `"p"` plain). -/
theorem get_mtime_precedence_witness :
    get_mtime wStatic0 argsON fsON "a" = none ∧
    get_mtime wStatic0 argsON fsON "o" = some 0 ∧
    get_mtime wStatic0 argsON fsON "n" = some (100 + 365 * 24 * 60 * 60) ∧
    get_mtime wStatic0 argsON fsON "p" = (⟨some 3⟩ : FsEntry).modified :=
  ⟨(get_mtime_precedence wStatic0 argsON fsON "a").1 rfl,
   (get_mtime_precedence wStatic0 argsON fsON "o").2.1 ⟨some 3⟩ rfl (by decide),
   (get_mtime_precedence wStatic0 argsON fsON "n").2.2.1 ⟨some 3⟩ rfl (by decide)
     (by decide),
   (get_mtime_precedence wStatic0 argsON fsON "p").2.2.2 ⟨some 3⟩ rfl (by decide)
     (by decide)⟩

/-- C4: a target that has a rule entry and is in the forced-old set is
reported up to date (only the info message is emitted) and `execute` returns
success without running any rule's recipe and without resolving or building
any prerequisite: the state is unchanged apart from the info event. -/
theorem old_file_short_circuit (m : RuleMap) (mk : Makefile) (w : World)
    (fuel : Nat) (target : String) (st : St) (idxs : List Nat)
    (hlk : btLookup m.by_target target = some idxs)
    (hold : target ∈ mk.args.old_file) :
    RuleMap.execute m mk w (fuel + 1) target st
      = .done (st.addEvent (.info (upToDateOldMsg target))) (.ok ()) := by
  rw [RuleMap.execute_succ]
  simp [executeBody, hlk, hold]

/-- C4 witness: the forced-old target `T` of `mSingle` short-circuits. -/
theorem old_file_short_circuit_witness :
    RuleMap.execute mSingle mkOldT wStatic0 1 "T" stTP
      = .done (stTP.addEvent (.info (upToDateOldMsg "T"))) (.ok ()) :=
  old_file_short_circuit mSingle mkOldT wStatic0 0 "T" stTP [0] (by decide)
    (by decide)

/-- C10: `RuleMap::insert` is not atomic on error: the rule is appended to
the rules store unconditionally, and on the colon-conflict error the targets
processed before the conflicting one remain indexed at the new handle (shown
at a concrete input: `rAB` conflicts on `B` but leaves `A` bound to the new
handle 1). -/
theorem insert_not_atomic :
    (∀ (m : RuleMap) (r : Rule), (m.insert r).1.rules = m.rules ++ [r]) ∧
    ((mB.insert rAB).2.2 = .error ⟨colonConflictMsg, rAB.context⟩ ∧
      (mB.insert rAB).1.rules = mB.rules ++ [rAB] ∧
      btLookup (mB.insert rAB).1.by_target "A" = some [1]) :=
  ⟨fun _ _ => rfl, rfl, rfl, rfl⟩

theorem execLinesF_not_panic (mk : Makefile) (w : World) (shell : String)
    (flags : List String) (ctx : Context) :
    ∀ (lines : List String) (st : St), (∀ l ∈ lines, l ≠ "") →
      (execLinesF mk w shell flags ctx lines st).isPanicB = false := by
  intro lines
  induction lines with
  | nil => intro st _; rfl
  | cons line rest ih =>
    intro st h
    have hline : line.data ≠ [] := fun hd => (h line (by simp)) (stringData_nil hd)
    have hrest : ∀ l ∈ rest, l ≠ "" := fun l hl => h l (by simp [hl])
    rcases hd : line.data with _ | ⟨c, cs⟩
    · exact absurd hd hline
    · simp only [execLinesF, hd]
      repeat' split
      all_goals first | rfl | exact ih _ hrest

/-- C9: a recipe containing an empty line makes `Rule::execute` panic (the
`unwrap` on the line's first character) as soon as it reaches that line,
before echoing it or spawning any process for it (the panic state is the
incoming state, unchanged), under any flags including `just_print`; and with
no empty line in the recipe, `Rule::execute` never panics. -/
theorem empty_line_panics :
    (∀ (mk : Makefile) (w : World) (shell : String) (flags : List String)
      (ctx : Context) (rest : List String) (st : St),
      execLinesF mk w shell flags ctx ("" :: rest) st = .panic st) ∧
    (∀ (r : Rule) (mk : Makefile) (w : World) (st : St),
      "" ∉ r.recipe → (r.execute mk w st).isPanicB = false) :=
  ⟨fun _ _ _ _ _ _ _ => rfl,
   fun r mk w st h =>
     execLinesF_not_panic mk w _ _ r.context r.recipe st
       (fun _ hl hle => h (hle ▸ hl))⟩

/-- C9 witness: the empty recipe line panics at a concrete input; the
all-nonempty recipe does not panic. -/
theorem empty_line_panics_witness :
    execLinesF mkPlain wStatic0 "sh" ["sh"] ⟨0⟩ [""] stNone = .panic stNone ∧
    (rPlainA.execute mkPlain wStatic0 stNone).isPanicB = false :=
  ⟨empty_line_panics.1 mkPlain wStatic0 "sh" ["sh"] ⟨0⟩ [] stNone,
   empty_line_panics.2 rPlainA mkPlain wStatic0 stNone (by decide)⟩

/-- C1 counterexample: the claim says signal termination is never
suppressible, but a recipe line with the `-` modifier whose process is
killed by a signal is ignored: `Rule::execute` succeeds. -/
theorem killed_suppressed_counterexample :
    (wKilled.run fsNone "sh" ["sh"] "-boom").1 = .killed ∧
    (rDash.execute mkPlain wKilled stNone).isOkB = true :=
  ⟨rfl, rfl⟩

/-- C1 (amended): a recipe line whose spawned process is terminated by a
signal makes `Rule::execute` fail with "Killed." provided the line's
modifier is not `-` and `ignore_errors` is off — signal termination is
suppressed by exactly the same conditions as a nonzero exit status,
contrary to the original claim that it is never suppressible. -/
theorem killed_error_amended (mk : Makefile) (w : World) (shell : String)
    (flags : List String) (ctx : Context) (line : String) (rest : List String)
    (st : St) (c : Char) (cs : List Char)
    (hdata : line.data = c :: cs)
    (hc : c ≠ '-')
    (hig : mk.args.ignore_errors = false)
    (hjp : mk.args.just_print = false)
    (hkill : (w.run st.fs shell flags line).1 = .killed) :
    ∃ st2, execLinesF mk w shell flags ctx (line :: rest) st
      = .done st2 (.error ⟨"Killed.", ctx⟩) := by
  have hmod : (if c = '@' ∨ c = '-' ∨ c = '+' then some c else none) ≠ some '-' := by
    split
    · simpa using hc
    · simp
  rcases hE : w.run st.fs shell flags line with ⟨res, fs2⟩
  have hres : res = SpawnResult.killed := by rw [hE] at hkill; exact hkill
  subst hres
  simp only [execLinesF, hdata]
  generalize hst1 : (if (if c = '@' ∨ c = '-' ∨ c = '+' then some c else none) ≠ some '@'
      ∨ mk.args.just_print = true then st.addEvent (Event.echo line) else st) = st1
  have hfs : st1.fs = st.fs := by
    rw [← hst1]
    repeat' split
    all_goals rfl
  rw [hfs, hE]
  refine ⟨⟨fs2, st1.events ++ [Event.spawn line]⟩, ?_⟩
  simp [hjp, hmod, hig]

/-- C1 amended witness: an unmodified line killed by a signal fails with
"Killed." at a concrete input. -/
theorem killed_error_amended_witness :
    ∃ st2, execLinesF mkPlain wKilled "sh" ["sh"] ⟨1⟩ ["x"] stNone
      = .done st2 (.error ⟨"Killed.", ⟨1⟩⟩) :=
  killed_error_amended mkPlain wKilled "sh" ["sh"] ⟨1⟩ "x" [] stNone 'x' []
    rfl (by decide) rfl rfl rfl

/-- C8: a target with no `by_target` entry makes `execute` fail with the
"No rule to make target" error with the state unchanged (so no process is
spawned); and an error produced by a recursed-to prerequisite is propagated
to the caller unchanged (aborting the enclosing resolution). -/
theorem unknown_target_error :
    (∀ (m : RuleMap) (mk : Makefile) (w : World) (fuel : Nat) (target : String)
      (st : St),
      btLookup m.by_target target = none →
      RuleMap.execute m mk w (fuel + 1) target st
        = .done st (.error ⟨noRuleMsg target, Context.new⟩)) ∧
    (∀ (m : RuleMap) (mk : Makefile) (w : World) (fuel : Nat) (target : String)
      (st st' : St) (i : Nat) (rest : List Nat) (p : String) (ps : List String)
      (e : MakeError),
      btLookup m.by_target target = some (i :: rest) →
      target ∉ mk.args.old_file →
      mk.args.always_make = false →
      (m.rules.getD i dummyRule).prerequisites = p :: ps →
      get_mtime w mk.args st.fs p = none →
      RuleMap.execute m mk w fuel p st = .done st' (.error e) →
      RuleMap.execute m mk w (fuel + 1) target st = .done st' (.error e)) := by
  constructor
  · intro m mk w fuel target st h
    rw [RuleMap.execute_succ]
    simp [executeBody, h]
  · intro m mk w fuel target st st' i rest p ps e hlk hold ham hpre hmt hrec
    rw [RuleMap.execute_succ]
    simp only [executeBody, hlk]
    rw [if_neg hold]
    simp only [execRulesF, hpre, ham, execPrereqsF, hmt, hrec]
    simp

/-- C8 witness: an unknown goal fails directly; a missing prerequisite with
no rule propagates the same error through its dependent target. -/
theorem unknown_target_error_witness :
    RuleMap.execute RuleMap.new mkPlain wStatic0 1 "X" stNone
      = .done stNone (.error ⟨noRuleMsg "X", Context.new⟩) ∧
    RuleMap.execute mTQ mkPlain wStatic0 2 "T" stTP
      = .done stTP (.error ⟨noRuleMsg "Q", Context.new⟩) :=
  ⟨unknown_target_error.1 RuleMap.new mkPlain wStatic0 0 "X" stNone rfl,
   unknown_target_error.2 mTQ mkPlain wStatic0 1 "T" stTP stTP 0 [] "Q" []
     ⟨noRuleMsg "Q", Context.new⟩ (by decide) (by decide) rfl (by decide)
     (by decide)
     (unknown_target_error.1 mTQ mkPlain wStatic0 0 "Q" stTP (by decide))⟩


theorem insertTargets_events_warn (rulesAll : List Rule) (index : Nat) (r : Rule) :
    ∀ (ts : List String) (bt : ByTarget),
      ∀ e ∈ (insertTargets rulesAll index r ts bt).2.1, e = .warn dupWarnMsg := by
  intro ts
  induction ts with
  | nil => intro bt e he; simp [insertTargets] at he
  | cons t ts ih =>
    intro bt e he
    rcases hl : btLookup bt t with _ | idxs
    · simp only [insertTargets, hl] at he
      exact ih _ e he
    · simp only [insertTargets, hl] at he
      split at he
      · simp at he
      · split at he
        · exact ih _ e he
        · have he' : e ∈ Event.warn dupWarnMsg
              :: (insertTargets rulesAll index r ts bt).2.1 := he
          rcases List.mem_cons.1 he' with h | h
          · exact h
          · exact ih _ e h

theorem insertTargets_conflict (rulesAll : List Rule) (index : Nat) (r : Rule)
    (T : String) (i : Nat) :
    ∀ (ts : List String) (bt : ByTarget) (rest : List Nat),
      T ∈ ts →
      btLookup bt T = some (i :: rest) →
      (rulesAll.getD i dummyRule).double_colon ≠ r.double_colon →
      (insertTargets rulesAll index r ts bt).2.2
        = .error ⟨colonConflictMsg, r.context⟩ := by
  intro ts
  induction ts with
  | nil => intro bt rest hT; simp at hT
  | cons t ts ih =>
    intro bt rest hT hlk hne
    by_cases hteq : t = T
    · subst hteq
      simp only [insertTargets, hlk, List.headD_cons]
      rw [if_pos hne]
    · have hT' : T ∈ ts := by
        rcases List.mem_cons.1 hT with h | h
        · exact absurd h.symm hteq
        · exact h
      rcases hl : btLookup bt t with _ | idxs
      · simp only [insertTargets, hl]
        exact ih (btInsert bt t [index]) rest hT'
          (by rw [btLookup_insert_ne bt t T [index] hteq]; exact hlk) hne
      · simp only [insertTargets, hl]
        split
        · rfl
        · split
          · exact ih (btUpdate bt t (idxs ++ [index])) rest hT'
              (by rw [btLookup_update_ne bt t T (idxs ++ [index]) hteq]; exact hlk)
              hne
          · exact ih bt rest hT' hlk hne

/-- C5: for a target already bound to stored rules, inserting a rule for it
whose `double_colon` flag differs from the stored rules' flag makes `insert`
return the colon-conflict validation error; insertion emits no recipe
process (its only possible events are duplicate-definition warnings). -/
theorem insert_colon_conflict (m : RuleMap) (r : Rule) (T : String) (i : Nat)
    (rest : List Nat)
    (hT : T ∈ r.targets)
    (hlk : btLookup m.by_target T = some (i :: rest))
    (hin : i < m.rules.length)
    (hne : (m.rules.getD i dummyRule).double_colon ≠ r.double_colon) :
    (m.insert r).2.2 = .error ⟨colonConflictMsg, r.context⟩ ∧
    ∀ e ∈ (m.insert r).2.1, e = .warn dupWarnMsg := by
  constructor
  · have hgd : (m.rules ++ [r]).getD i dummyRule = m.rules.getD i dummyRule :=
      List.getD_append _ _ _ _ hin
    exact insertTargets_conflict (m.rules ++ [r]) m.rules.length r T i r.targets
      m.by_target rest hT hlk (by rw [hgd]; exact hne)
  · exact fun e he => insertTargets_events_warn _ _ _ r.targets m.by_target e he

/-- C5 witness: a `::` rule for `T`, already bound by a `:` rule, is
rejected with the conflict error and only-warn events. -/
theorem insert_colon_conflict_witness :
    (mSingle.insert rConflict).2.2 = .error ⟨colonConflictMsg, rConflict.context⟩ ∧
    ∀ e ∈ (mSingle.insert rConflict).2.1, e = .warn dupWarnMsg :=
  insert_colon_conflict mSingle rConflict "T" 0 [] (by decide) (by decide)
    (by decide) (by decide)


theorem exceptOk_eq {e : Except MakeError Unit} (h : Except.isOkB e = true) :
    e = .ok () := by
  cases e with
  | ok u => cases u; rfl
  | error e2 => simp [Except.isOkB] at h

theorem insert_rules_eq (m : RuleMap) (r : Rule) :
    (m.insert r).1.rules = m.rules ++ [r] := rfl

theorem insertTargets_lookup_unchanged (rulesAll : List Rule) (index : Nat)
    (r : Rule) :
    ∀ (ts : List String) (bt : ByTarget) (T : String), ts.count T = 0 →
      btLookup (insertTargets rulesAll index r ts bt).1 T = btLookup bt T := by
  intro ts
  induction ts with
  | nil => intro bt T _; rfl
  | cons t ts ih =>
    intro bt T h
    rw [List.count_cons] at h
    by_cases hbe : t = T
    · subst hbe
      simp at h
    · have hfalse : (t == T) = false := by simpa using hbe
      rw [hfalse] at h
      simp at h
      rcases hl : btLookup bt t with _ | idxs
      · simp only [insertTargets, hl]
        rw [ih (btInsert bt t [index]) T h, btLookup_insert_ne bt t T [index] hbe]
      · simp only [insertTargets, hl]
        split
        · rfl
        · split
          · rw [ih (btUpdate bt t (idxs ++ [index])) T h,
                btLookup_update_ne bt t T (idxs ++ [index]) hbe]
          · exact ih bt T h

theorem insertTargets_retains (rulesAll : List Rule) (index : Nat) (r : Rule) :
    ∀ (ts : List String) (bt : ByTarget) (T : String),
      ts.count T = 1 →
      r.double_colon = true →
      (insertTargets rulesAll index r ts bt).2.2 = .ok () →
      btLookup (insertTargets rulesAll index r ts bt).1 T
        = some ((btLookup bt T).getD [] ++ [index]) := by
  intro ts
  induction ts with
  | nil => intro bt T h; simp at h
  | cons t ts ih =>
    intro bt T hcount hdc hok
    rw [List.count_cons] at hcount
    by_cases hteq : t = T
    · subst hteq
      have htt : (t == t) = true := by simp
      rw [htt] at hcount
      have hc0 : ts.count t = 0 := by simp at hcount; omega
      rcases hl : btLookup bt t with _ | idxs
      · simp only [insertTargets, hl]
        rw [insertTargets_lookup_unchanged rulesAll index r ts _ t hc0,
            btLookup_insert_self bt t [index] hl]
        simp
      · simp only [insertTargets, hl] at hok ⊢
        by_cases hflag :
            (rulesAll.getD (idxs.headD 0) dummyRule).double_colon ≠ r.double_colon
        · rw [if_pos hflag] at hok
          exact absurd hok (by simp)
        · rw [if_neg hflag] at hok ⊢
          rw [if_pos hdc] at hok ⊢
          rw [insertTargets_lookup_unchanged rulesAll index r ts _ t hc0,
              btLookup_update_self bt t (idxs ++ [index]) idxs hl]
          simp
    · have hfalse : (t == T) = false := by simpa using hteq
      rw [hfalse] at hcount
      have hc1 : ts.count T = 1 := by simpa using hcount
      rcases hl : btLookup bt t with _ | idxs
      · simp only [insertTargets, hl] at hok ⊢
        rw [ih (btInsert bt t [index]) T hc1 hdc hok,
            btLookup_insert_ne bt t T [index] hteq]
      · simp only [insertTargets, hl] at hok ⊢
        by_cases hflag :
            (rulesAll.getD (idxs.headD 0) dummyRule).double_colon ≠ r.double_colon
        · rw [if_pos hflag] at hok
          exact absurd hok (by simp)
        · rw [if_neg hflag] at hok ⊢
          rw [if_pos hdc] at hok ⊢
          rw [ih (btUpdate bt t (idxs ++ [index])) T hc1 hdc hok,
              btLookup_update_ne bt t T (idxs ++ [index]) hteq]

theorem insertAll_retains (T : String) :
    ∀ (rs : List Rule) (m : RuleMap) (l0 : List Nat),
      (∀ r ∈ rs, r.double_colon = true ∧ r.targets.count T = 1) →
      (insertAll m rs).2 = true →
      btLookup m.by_target T = some l0 →
      btLookup (insertAll m rs).1.by_target T
        = some (l0 ++ List.range' m.rules.length rs.length) := by
  intro rs
  induction rs with
  | nil =>
    intro m l0 _ _ hlk
    simpa [insertAll] using hlk
  | cons r rs ih =>
    intro m l0 hall hok hlk
    have hok2 : Except.isOkB (m.insert r).2.2 = true
        ∧ (insertAll (m.insert r).1 rs).2 = true := by
      have h0 : (Except.isOkB (m.insert r).2.2
          && (insertAll (m.insert r).1 rs).2) = true := hok
      simp only [Bool.and_eq_true] at h0
      exact h0
    have hr := hall r (by simp)
    have hstep : btLookup (m.insert r).1.by_target T
        = some (l0 ++ [m.rules.length]) := by
      have h1 := insertTargets_retains (m.rules ++ [r]) m.rules.length r
        r.targets m.by_target T hr.2 hr.1 (exceptOk_eq hok2.1)
      rw [hlk] at h1
      simpa using h1
    have hih := ih (m.insert r).1 (l0 ++ [m.rules.length])
      (fun r2 hr2 => hall r2 (by simp [hr2])) hok2.2 hstep
    rw [insert_rules_eq] at hih
    have hlen : (m.rules ++ [r]).length = m.rules.length + 1 := by simp
    rw [hlen] at hih
    calc btLookup (insertAll m (r :: rs)).1.by_target T
        = btLookup (insertAll (m.insert r).1 rs).1.by_target T := rfl
      _ = some (l0 ++ [m.rules.length]
            ++ List.range' (m.rules.length + 1) rs.length) := hih
      _ = some (l0 ++ List.range' m.rules.length (rs.length + 1)) := by
          rw [List.range'_succ,
            List.append_cons l0 m.rules.length
              (List.range' (m.rules.length + 1) rs.length)]

theorem recipeRuns_append (T : String) (l1 l2 : List Event) :
    recipeRuns T (l1 ++ l2) = recipeRuns T l1 ++ recipeRuns T l2 :=
  List.filterMap_append l1 l2 _

theorem recipeRuns_no_run (T : String) :
    ∀ (evts : List Event), (evts.all fun e => !e.isRunRecipe) = true →
      recipeRuns T evts = [] := by
  intro evts
  induction evts with
  | nil => intro _; rfl
  | cons e evts ih =>
    intro h
    rw [List.all_cons, Bool.and_eq_true] at h
    have he : e.isRunRecipe = false := by simpa using h.1
    cases e with
    | runRecipe t i => simp [Event.isRunRecipe] at he
    | echo l =>
      simp only [recipeRuns, List.filterMap_cons]
      exact ih h.2
    | spawn l =>
      simp only [recipeRuns, List.filterMap_cons]
      exact ih h.2
    | info msg =>
      simp only [recipeRuns, List.filterMap_cons]
      exact ih h.2
    | warn msg =>
      simp only [recipeRuns, List.filterMap_cons]
      exact ih h.2

theorem recipeRuns_single_run (T : String) (i : Nat) (evts : List Event) :
    recipeRuns T (evts ++ [Event.runRecipe T i]) = recipeRuns T evts ++ [i] := by
  rw [recipeRuns_append]
  simp [recipeRuns]

theorem execLinesF_just_print (mk : Makefile) (w : World) (shell : String)
    (flags : List String) (ctx : Context) (hjp : mk.args.just_print = true) :
    ∀ (lines : List String) (st : St), (∀ l ∈ lines, l ≠ "") →
      ∃ evts, execLinesF mk w shell flags ctx lines st
          = .done ⟨st.fs, st.events ++ evts⟩ (.ok ())
        ∧ (evts.all fun e => !e.isRunRecipe) = true := by
  intro lines
  induction lines with
  | nil =>
    intro st _
    exact ⟨[], by rw [List.append_nil]; rfl, rfl⟩
  | cons line rest ih =>
    intro st h
    have hline : line.data ≠ [] := fun hd => (h line (by simp)) (stringData_nil hd)
    rcases hd : line.data with _ | ⟨c, cs⟩
    · exact absurd hd hline
    · have hrest : ∀ l ∈ rest, l ≠ "" := fun l hl => h l (by simp [hl])
      obtain ⟨evts, heq, hall⟩ := ih (st.addEvent (.echo line)) hrest
      refine ⟨.echo line :: evts, ?_, ?_⟩
      · simp only [execLinesF, hd]
        rw [if_pos (Or.inr hjp), if_pos hjp, heq]
        simp [St.addEvent]
      · rw [List.all_cons, hall]
        rfl


theorem execRulesF_no_prereq_jp (recur : String → St → ExecRes) (mk : Makefile)
    (w : World) (rules : List Rule) (T : String)
    (hjp : mk.args.just_print = true) :
    ∀ (idxs : List Nat) (executed : Bool) (st : St),
      (∀ i ∈ idxs, (rules.getD i dummyRule).prerequisites = []
        ∧ ∀ l ∈ (rules.getD i dummyRule).recipe, l ≠ "") →
      ∃ st' b', execRulesF recur mk w rules T none idxs executed st
          = .done st' b' (.ok ())
        ∧ st'.fs = st.fs
        ∧ recipeRuns T st'.events = recipeRuns T st.events ++ idxs := by
  intro idxs
  induction idxs with
  | nil =>
    intro executed st _
    exact ⟨st, executed, rfl, rfl, by simp⟩
  | cons i rest ih =>
    intro executed st hall
    have hi := hall i (by simp)
    have hrest : ∀ j ∈ rest, (rules.getD j dummyRule).prerequisites = []
        ∧ ∀ l ∈ (rules.getD j dummyRule).recipe, l ≠ "" :=
      fun j hj => hall j (by simp [hj])
    obtain ⟨evts, heq, hallE⟩ := execLinesF_just_print mk w (mk.vars "SHELL")
      (splitWhitespace (mk.vars ".SHELLFLAGS")) (rules.getD i dummyRule).context
      hjp (rules.getD i dummyRule).recipe (st.addEvent (.runRecipe T i)) hi.2
    obtain ⟨st', b', heq2, hfs2, hrr2⟩ := ih true
      ⟨st.fs, (st.events ++ [Event.runRecipe T i]) ++ evts⟩ hrest
    refine ⟨st', b', ?_, hfs2, ?_⟩
    · simp only [execRulesF, hi.1, execPrereqsF, Option.isNone_none, Bool.true_or,
        eq_self_iff_true, if_true, Rule.execute, heq, St.addEvent_fs,
        St.addEvent_events]
      exact heq2
    · rw [hrr2, recipeRuns_append, recipeRuns_single_run,
        recipeRuns_no_run T evts hallE]
      simp

/-- C6: for a target bound only by double-colon rules, inserting N such
rules (each listing the target once) retains exactly the N new handles in
declaration order (`List.range'` of consecutive indices); and `execute`
iterates the bound rules in exactly that handle order, shown by the trace of
recipe executions being the handle list itself (stated for rules without
prerequisites under `just_print`, so that every bound rule's recipe runs and
the trace is fully determined). -/
theorem double_colon_order :
    (∀ (r0 : Rule) (rs : List Rule) (m : RuleMap) (T : String),
      (∀ r ∈ r0 :: rs, r.double_colon = true ∧ r.targets.count T = 1) →
      (insertAll m (r0 :: rs)).2 = true →
      btLookup m.by_target T = none →
      btLookup (insertAll m (r0 :: rs)).1.by_target T
        = some (List.range' m.rules.length (rs.length + 1))) ∧
    (∀ (m : RuleMap) (mk : Makefile) (w : World) (fuel : Nat) (T : String)
      (st : St) (idxs : List Nat),
      btLookup m.by_target T = some idxs →
      T ∉ mk.args.old_file →
      mk.args.just_print = true →
      get_mtime w mk.args st.fs T = none →
      (∀ i ∈ idxs, (m.rules.getD i dummyRule).prerequisites = []
        ∧ ∀ l ∈ (m.rules.getD i dummyRule).recipe, l ≠ "") →
      ∃ st', RuleMap.execute m mk w (fuel + 1) T st = .done st' (.ok ())
        ∧ recipeRuns T st'.events = recipeRuns T st.events ++ idxs) := by
  constructor
  · intro r0 rs m T hall hok hnone
    have hok2 : Except.isOkB (m.insert r0).2.2 = true
        ∧ (insertAll (m.insert r0).1 rs).2 = true := by
      have h0 : (Except.isOkB (m.insert r0).2.2
          && (insertAll (m.insert r0).1 rs).2) = true := hok
      simp only [Bool.and_eq_true] at h0
      exact h0
    have hr := hall r0 (by simp)
    have hstep : btLookup (m.insert r0).1.by_target T = some [m.rules.length] := by
      have h1 := insertTargets_retains (m.rules ++ [r0]) m.rules.length r0
        r0.targets m.by_target T hr.2 hr.1 (exceptOk_eq hok2.1)
      rw [hnone] at h1
      simpa using h1
    have hih := insertAll_retains T rs (m.insert r0).1 [m.rules.length]
      (fun r2 hr2 => hall r2 (by simp [hr2])) hok2.2 hstep
    rw [insert_rules_eq] at hih
    have hlen : (m.rules ++ [r0]).length = m.rules.length + 1 := by simp
    rw [hlen] at hih
    calc btLookup (insertAll m (r0 :: rs)).1.by_target T
        = btLookup (insertAll (m.insert r0).1 rs).1.by_target T := rfl
      _ = some ([m.rules.length] ++ List.range' (m.rules.length + 1) rs.length) :=
        hih
      _ = some (List.range' m.rules.length (rs.length + 1)) := by
          rw [List.range'_succ]
          rfl
  · intro m mk w fuel T st idxs hlk hold hjp htm hall
    rw [RuleMap.execute_succ]
    simp only [executeBody, hlk]
    rw [if_neg hold, htm]
    obtain ⟨st1, b1, heq, hfs1, hrr1⟩ := execRulesF_no_prereq_jp
      (RuleMap.execute m mk w fuel) mk w m.rules T hjp idxs false st hall
    rw [heq]
    cases b1
    · refine ⟨st1.addEvent (.info (upToDateMsg T)), rfl, ?_⟩
      rw [St.addEvent_events, recipeRuns_append, hrr1]
      simp [recipeRuns]
    · exact ⟨st1, rfl, hrr1⟩

/-- C6 witness: two double-colon rules for `T` retain handles `[0, 1]` and
execute in that order. -/
theorem double_colon_order_witness :
    btLookup (insertAll RuleMap.new [rD1, rD2]).1.by_target "T"
      = some (List.range' RuleMap.new.rules.length ([rD2].length + 1)) ∧
    (∃ st', RuleMap.execute (insertAll RuleMap.new [rD1, rD2]).1 mkJustPrint
        wStatic0 1 "T" stNone = .done st' (.ok ())
      ∧ recipeRuns "T" st'.events = recipeRuns "T" stNone.events ++ [0, 1]) :=
  ⟨double_colon_order.1 rD1 [rD2] RuleMap.new "T" (by decide) (by decide) rfl,
   double_colon_order.2 (insertAll RuleMap.new [rD1, rD2]).1 mkJustPrint wStatic0
     0 "T" stNone [0, 1] (by decide) (by decide) rfl rfl (by decide)⟩


theorem headD_mem {l : List Nat} (h : l ≠ []) (d : Nat) : l.headD d ∈ l := by
  cases l with
  | nil => exact absurd rfl h
  | cons a l => simp

theorem getD_concat (l : List Rule) (r d : Rule) :
    (l ++ [r]).getD l.length d = r := by
  rw [List.getD_append_right l [r] d l.length (Nat.le_refl _)]
  simp

theorem insertTargets_inv (rulesAll : List Rule) (index : Nat) (r : Rule)
    (hin : index < rulesAll.length)
    (hr : rulesAll.getD index dummyRule = r) :
    ∀ (ts : List String) (bt : ByTarget), btInv rulesAll bt →
      btInv rulesAll (insertTargets rulesAll index r ts bt).1 := by
  intro ts
  induction ts with
  | nil => intro bt h; exact h
  | cons t ts ih =>
    intro bt h
    rcases hl : btLookup bt t with _ | idxs
    · simp only [insertTargets, hl]
      apply ih
      intro p hp
      rcases btInsert_mem hp with hp1 | hp2
      · exact h p hp1
      · subst hp2
        refine ⟨by simp, ?_, ?_⟩
        · intro i hi
          have : i = index := by simpa using hi
          subst this
          exact hin
        · intro _
          simp
    · simp only [insertTargets, hl]
      split
      · exact h
      · split
        · next hflag hdc =>
          apply ih
          intro p hp
          rcases btUpdate_mem hp with hp1 | hp2
          · subst hp1
            obtain ⟨q, hq, hq1, hq2⟩ := btLookup_mem hl
            have hqInv := h q hq
            refine ⟨by simp, ?_, ?_⟩
            · intro i hi
              rcases List.mem_append.1 hi with hi1 | hi2
              · exact hqInv.2.1 i (by rw [hq2]; exact hi1)
              · have : i = index := by simpa using hi2
                subst this
                exact hin
            · intro hfalse
              rcases hidxs : idxs with _ | ⟨i0, restIdx⟩
              · exact absurd (hq2.trans hidxs) hqInv.1
              · rw [hidxs] at hfalse
                have hd : ((i0 :: restIdx) ++ [index]).headD 0 = i0 := by simp
                rw [hd] at hfalse
                have heq0 : (rulesAll.getD ((i0 :: restIdx).headD 0)
                    dummyRule).double_colon = r.double_colon := by
                  by_contra hcon
                  rw [hidxs] at hflag
                  exact hflag hcon
                rw [List.headD_cons] at heq0
                rw [hfalse] at heq0
                rw [← heq0] at hdc
                exact absurd hdc (by simp)
          · exact h p hp2
        · exact ih bt h

theorem insertTargets_single_dup (rulesAll : List Rule) (index : Nat) (r : Rule)
    (hr : rulesAll.getD index dummyRule = r)
    (hdc : r.double_colon = false) :
    ∀ (ts : List String) (bt : ByTarget),
      (∀ t ∈ ts, ∀ q ∈ bt, q.1 = t →
        (rulesAll.getD (q.2.headD 0) dummyRule).double_colon = false) →
      (insertTargets rulesAll index r ts bt).2.2 = .ok ()
      ∧ (∀ (T : String) (l : List Nat), btLookup bt T = some l →
          btLookup (insertTargets rulesAll index r ts bt).1 T = some l)
      ∧ ((∃ t ∈ ts, btLookup bt t ≠ none) →
          .warn dupWarnMsg ∈ (insertTargets rulesAll index r ts bt).2.1) := by
  intro ts
  induction ts with
  | nil =>
    intro bt _
    refine ⟨rfl, fun T l h => h, ?_⟩
    rintro ⟨t, ht, _⟩
    simp at ht
  | cons t ts ih =>
    intro bt hall
    have hallRest : ∀ t2 ∈ ts, ∀ q ∈ bt, q.1 = t2 →
        (rulesAll.getD (q.2.headD 0) dummyRule).double_colon = false :=
      fun t2 ht2 => hall t2 (by simp [ht2])
    rcases hl : btLookup bt t with _ | idxs
    · -- fresh key: insert (t, [index]) and recurse
      have hallIns : ∀ t2 ∈ ts, ∀ q ∈ btInsert bt t [index], q.1 = t2 →
          (rulesAll.getD (q.2.headD 0) dummyRule).double_colon = false := by
        intro t2 ht2 q hq hq1
        rcases btInsert_mem hq with hq2 | hq3
        · exact hallRest t2 ht2 q hq2 hq1
        · subst hq3
          simp only [List.headD_cons, hr]
          exact hdc
      obtain ⟨ihA, ihB, ihC⟩ := ih (btInsert bt t [index]) hallIns
      simp only [insertTargets, hl]
      refine ⟨ihA, ?_, ?_⟩
      · intro T l hT
        have hTne : t ≠ T := fun hEq => by rw [hEq, hT] at hl; exact absurd hl (by simp)
        exact ihB T l (by rw [btLookup_insert_ne bt t T [index] hTne]; exact hT)
      · rintro ⟨t2, ht2, hsome⟩
        rcases List.mem_cons.1 ht2 with h2 | h2
        · rw [h2] at hsome
          exact absurd hl hsome
        · refine ihC ⟨t2, h2, ?_⟩
          by_cases hq : t = t2
          · rw [← hq, btLookup_insert_self bt t [index] hl]
            simp
          · rw [btLookup_insert_ne bt t t2 [index] hq]
            exact hsome
    · -- bound key: the flag check passes with equal flags, warn branch
      have hflag : (rulesAll.getD (idxs.headD 0) dummyRule).double_colon = false := by
        obtain ⟨q, hq, hq1, hq2⟩ := btLookup_mem hl
        have := hall t (by simp) q hq hq1
        rw [hq2] at this
        exact this
      have hcond : ¬ ((rulesAll.getD (idxs.headD 0) dummyRule).double_colon
          ≠ r.double_colon) := by
        rw [hflag, hdc]
        simp
      obtain ⟨ihA, ihB, ihC⟩ := ih bt hallRest
      simp only [insertTargets, hl]
      rw [if_neg hcond]
      have hdcF : ¬ (r.double_colon = true) := by rw [hdc]; simp
      rw [if_neg hdcF]
      refine ⟨ihA, fun T l hT => ihB T l hT, fun _ => List.mem_cons_self _ _⟩

/-- C7: single-colon uniqueness: inserting any rule preserves the invariant
that a target whose stored rules are single-colon retains at most one
handle; and inserting a duplicate single-colon definition for an
already-bound target succeeds (only a warning is emitted), leaves the
target's binding unchanged (the first definition stays bound), and emits
the duplicate-definition warning. -/
theorem single_colon_retention :
    (∀ (m : RuleMap) (r : Rule), btWF m → singleColonUnique m →
      btWF (m.insert r).1 ∧ singleColonUnique (m.insert r).1) ∧
    (∀ (m : RuleMap) (r : Rule) (T : String) (l : List Nat),
      r.double_colon = false →
      btWF m →
      (∀ t ∈ r.targets, ∀ q ∈ m.by_target, q.1 = t →
        (m.rules.getD (q.2.headD 0) dummyRule).double_colon = false) →
      T ∈ r.targets →
      btLookup m.by_target T = some l →
      (m.insert r).2.2 = .ok ()
      ∧ btLookup (m.insert r).1.by_target T = some l
      ∧ .warn dupWarnMsg ∈ (m.insert r).2.1) := by
  constructor
  · intro m r hWF hSCU
    have hin : m.rules.length < (m.rules ++ [r]).length := by simp
    have hr : (m.rules ++ [r]).getD m.rules.length dummyRule = r :=
      getD_concat m.rules r dummyRule
    have hinv0 : btInv (m.rules ++ [r]) m.by_target := by
      intro p hp
      obtain ⟨hne, hbound⟩ := hWF p hp
      refine ⟨hne, ?_, ?_⟩
      · intro i hi
        calc i < m.rules.length := hbound i hi
          _ < (m.rules ++ [r]).length := hin
      · intro hfalse
        apply hSCU p hp
        rw [← List.getD_append m.rules [r] dummyRule (p.2.headD 0)
          (hbound _ (headD_mem hne 0))]
        exact hfalse
    have hinv := insertTargets_inv (m.rules ++ [r]) m.rules.length r hin hr
      r.targets m.by_target hinv0
    constructor
    · intro p hp
      obtain ⟨hne, hbound, _⟩ := hinv p hp
      exact ⟨hne, hbound⟩
    · intro p hp
      obtain ⟨_, _, hscu⟩ := hinv p hp
      exact hscu
  · intro m r T l hdc hWF hall hT hlk
    have hr : (m.rules ++ [r]).getD m.rules.length dummyRule = r :=
      getD_concat m.rules r dummyRule
    have hall2 : ∀ t ∈ r.targets, ∀ q ∈ m.by_target, q.1 = t →
        ((m.rules ++ [r]).getD (q.2.headD 0) dummyRule).double_colon = false := by
      intro t ht q hq hq1
      obtain ⟨hne, hbound⟩ := hWF q hq
      rw [List.getD_append m.rules [r] dummyRule (q.2.headD 0)
        (hbound _ (headD_mem hne 0))]
      exact hall t ht q hq hq1
    obtain ⟨hA, hB, hC⟩ := insertTargets_single_dup (m.rules ++ [r])
      m.rules.length r hr hdc r.targets m.by_target hall2
    exact ⟨hA, hB T l hlk, hC ⟨T, hT, by rw [hlk]; simp⟩⟩

/-- C7 witness: re-inserting a single-colon rule for the already-bound `T`
keeps the original handle `[0]`, succeeds, and warns; the invariant is
preserved at the same input. -/
theorem single_colon_retention_witness :
    (btWF (mSingle.insert rSingle2).1 ∧ singleColonUnique (mSingle.insert rSingle2).1)
    ∧ ((mSingle.insert rSingle2).2.2 = .ok ()
      ∧ btLookup (mSingle.insert rSingle2).1.by_target "T" = some [0]
      ∧ .warn dupWarnMsg ∈ (mSingle.insert rSingle2).2.1) :=
  ⟨single_colon_retention.1 mSingle rSingle2 (by unfold btWF; decide)
     (by unfold singleColonUnique; decide),
   single_colon_retention.2 mSingle rSingle2 "T" [0] rfl (by unfold btWF; decide)
     (by decide) (by decide) (by decide)⟩


theorem execLinesF_static (mk : Makefile) (w : World) (shell : String)
    (flags : List String) (ctx : Context) (hst : StaticRun w) :
    ∀ (lines : List String) (st st2 : St) (res : Except MakeError Unit),
      execLinesF mk w shell flags ctx lines st = .done st2 res →
      st2.fs = st.fs ∧ ∃ evts, st2.events = st.events ++ evts
        ∧ (evts.all fun e => !e.isRunRecipe) = true := by
  intro lines
  induction lines with
  | nil =>
    intro st st2 res h
    simp only [execLinesF] at h
    cases h
    exact ⟨rfl, [], by simp, rfl⟩
  | cons line rest ih =>
    intro st st2 res h
    rcases hd : line.data with _ | ⟨c, cs⟩
    · simp only [execLinesF, hd] at h
      exact absurd h (by simp)
    · simp only [execLinesF, hd] at h
      by_cases hjp : mk.args.just_print = true
      · rw [if_pos (Or.inr hjp), if_pos hjp] at h
        obtain ⟨hfs, evts, he, ha⟩ := ih _ _ _ h
        refine ⟨hfs, Event.echo line :: evts, ?_, ?_⟩
        · calc st2.events = (st.events ++ [Event.echo line]) ++ evts := he
            _ = st.events ++ (Event.echo line :: evts) := by
              rw [List.append_assoc]; rfl
        · rw [List.all_cons, ha]; rfl
      · rw [if_neg hjp] at h
        generalize hst1 : (if (if c = '@' ∨ c = '-' ∨ c = '+' then some c else none)
            ≠ some '@' ∨ mk.args.just_print = true
            then st.addEvent (Event.echo line) else st) = st1 at h
        have hst1fs : st1.fs = st.fs := by
          rw [← hst1]
          repeat' split
          all_goals rfl
        have hst1ev : ∃ evts0, st1.events = st.events ++ evts0
            ∧ (evts0.all fun e => !e.isRunRecipe) = true := by
          rw [← hst1]
          by_cases hec : ((if c = '@' ∨ c = '-' ∨ c = '+' then some c else none)
              ≠ some '@' ∨ mk.args.just_print = true)
          · rw [if_pos hec]
            exact ⟨[Event.echo line], rfl, rfl⟩
          · rw [if_neg hec]
            exact ⟨[], by simp, rfl⟩
        obtain ⟨evts0, hev0, ha0⟩ := hst1ev
        have hrunfs : (w.run st1.fs shell flags line).2 = st1.fs :=
          hst st1.fs shell flags line
        split at h
        · -- spawnErr
          cases h
          refine ⟨?_, evts0 ++ [Event.spawn line], ?_, ?_⟩
          · calc (w.run st1.fs shell flags line).2 = st1.fs := hrunfs
              _ = st.fs := hst1fs
          · calc st1.events ++ [Event.spawn line]
                = (st.events ++ evts0) ++ [Event.spawn line] := by rw [hev0]
              _ = st.events ++ (evts0 ++ [Event.spawn line]) := by
                  rw [List.append_assoc]
          · rw [List.all_append, ha0]; rfl
        · -- exited
          rename_i code heq
          by_cases han : ((if c = '@' ∨ c = '-' ∨ c = '+' then some c else none)
              ≠ some '-' ∧ ¬ mk.args.ignore_errors = true)
          · rw [if_pos han] at h
            by_cases hcode : code ≠ 0
            · rw [if_pos hcode] at h
              cases h
              refine ⟨?_, evts0 ++ [Event.spawn line], ?_, ?_⟩
              · calc (w.run st1.fs shell flags line).2 = st1.fs := hrunfs
                  _ = st.fs := hst1fs
              · calc st1.events ++ [Event.spawn line]
                    = (st.events ++ evts0) ++ [Event.spawn line] := by rw [hev0]
                  _ = st.events ++ (evts0 ++ [Event.spawn line]) := by
                      rw [List.append_assoc]
              · rw [List.all_append, ha0]; rfl
            · rw [if_neg hcode] at h
              obtain ⟨hfsr, evts1, he1, ha1⟩ := ih _ _ _ h
              refine ⟨?_, evts0 ++ Event.spawn line :: evts1, ?_, ?_⟩
              · calc st2.fs = (w.run st1.fs shell flags line).2 := hfsr
                  _ = st1.fs := hrunfs
                  _ = st.fs := hst1fs
              · calc st2.events
                    = (st1.events ++ [Event.spawn line]) ++ evts1 := he1
                  _ = ((st.events ++ evts0) ++ [Event.spawn line]) ++ evts1 := by
                      rw [hev0]
                  _ = st.events ++ (evts0 ++ Event.spawn line :: evts1) := by
                      simp [List.append_assoc]
              · rw [List.all_append, ha0, List.all_cons, ha1]; rfl
          · rw [if_neg han] at h
            obtain ⟨hfsr, evts1, he1, ha1⟩ := ih _ _ _ h
            refine ⟨?_, evts0 ++ Event.spawn line :: evts1, ?_, ?_⟩
            · calc st2.fs = (w.run st1.fs shell flags line).2 := hfsr
                _ = st1.fs := hrunfs
                _ = st.fs := hst1fs
            · calc st2.events
                  = (st1.events ++ [Event.spawn line]) ++ evts1 := he1
                _ = ((st.events ++ evts0) ++ [Event.spawn line]) ++ evts1 := by
                    rw [hev0]
                _ = st.events ++ (evts0 ++ Event.spawn line :: evts1) := by
                    simp [List.append_assoc]
            · rw [List.all_append, ha0, List.all_cons, ha1]; rfl
        · -- killed
          by_cases han : ((if c = '@' ∨ c = '-' ∨ c = '+' then some c else none)
              ≠ some '-' ∧ ¬ mk.args.ignore_errors = true)
          · rw [if_pos han] at h
            cases h
            refine ⟨?_, evts0 ++ [Event.spawn line], ?_, ?_⟩
            · calc (w.run st1.fs shell flags line).2 = st1.fs := hrunfs
                _ = st.fs := hst1fs
            · calc st1.events ++ [Event.spawn line]
                  = (st.events ++ evts0) ++ [Event.spawn line] := by rw [hev0]
                _ = st.events ++ (evts0 ++ [Event.spawn line]) := by
                    rw [List.append_assoc]
            · rw [List.all_append, ha0]; rfl
          · rw [if_neg han] at h
            obtain ⟨hfsr, evts1, he1, ha1⟩ := ih _ _ _ h
            refine ⟨?_, evts0 ++ Event.spawn line :: evts1, ?_, ?_⟩
            · calc st2.fs = (w.run st1.fs shell flags line).2 := hfsr
                _ = st1.fs := hrunfs
                _ = st.fs := hst1fs
            · calc st2.events
                  = (st1.events ++ [Event.spawn line]) ++ evts1 := he1
                _ = ((st.events ++ evts0) ++ [Event.spawn line]) ++ evts1 := by
                    rw [hev0]
                _ = st.events ++ (evts0 ++ Event.spawn line :: evts1) := by
                    simp [List.append_assoc]
            · rw [List.all_append, ha0, List.all_cons, ha1]; rfl

theorem count_no_run (T : String) (i : Nat) {evts : List Event}
    (h : (evts.all fun e => !e.isRunRecipe) = true) :
    evts.count (Event.runRecipe T i) = 0 := by
  rw [List.count_eq_zero]
  intro hmem
  have h2 := List.all_eq_true.1 h _ hmem
  simp [Event.isRunRecipe] at h2

theorem rule_execute_static_count (mk : Makefile) (w : World) (r : Rule)
    (T : String) (i : Nat) (hst : StaticRun w) (st st2 : St)
    (res : Except MakeError Unit)
    (h : r.execute mk w st = .done st2 res) :
    st2.fs = st.fs ∧ st2.events.count (Event.runRecipe T i)
      = st.events.count (Event.runRecipe T i) := by
  obtain ⟨hfs, evts, hev, ha⟩ := execLinesF_static mk w (mk.vars "SHELL")
    (splitWhitespace (mk.vars ".SHELLFLAGS")) r.context hst r.recipe st st2 res h
  refine ⟨hfs, ?_⟩
  rw [hev, List.count_append, count_no_run T i ha]
  exact Nat.add_zero _

theorem execPrereqsF_static (recur : String → St → ExecRes) (w : World)
    (args : Args) (tmopt : Option Nat) (fs0 : FS) (T : String) (i : Nat)
    (ham : args.always_make = false)
    (hrec : ∀ (q : String) (st1 st2 : St) (r2 : Except MakeError Unit),
      st1.fs = fs0 → get_mtime w args fs0 q = none →
      recur q st1 = .done st2 r2 →
      st2.fs = fs0 ∧ st2.events.count (Event.runRecipe T i)
        = st1.events.count (Event.runRecipe T i)) :
    ∀ (ps : List String) (b : Bool) (st st2 : St) (b2 : Bool)
      (res : Except MakeError Unit),
      st.fs = fs0 →
      execPrereqsF recur w args tmopt ps b st = .done st2 b2 res →
      st2.fs = fs0 ∧ st2.events.count (Event.runRecipe T i)
        = st.events.count (Event.runRecipe T i) := by
  intro ps
  induction ps with
  | nil =>
    intro b st st2 b2 res hfs h
    simp only [execPrereqsF] at h
    cases h
    exact ⟨hfs, rfl⟩
  | cons p ps ih =>
    intro b st st2 b2 res hfs h
    simp only [execPrereqsF] at h
    have hamF : ¬ (args.always_make = true) := by rw [ham]; simp
    rw [if_neg hamF, hfs] at h
    rcases hmt : get_mtime w args fs0 p with _ | pm
    · rw [hmt] at h
      rcases hcall : recur p st with s | s | ⟨st1, r1⟩
      · rw [hcall] at h; exact absurd h (by simp)
      · rw [hcall] at h; exact absurd h (by simp)
      · rw [hcall] at h
        have hrec1 := hrec p st st1 r1 hfs hmt hcall
        rcases r1 with e1 | u1
        · cases h
          exact hrec1
        · obtain ⟨hfs2, hcnt⟩ := ih true st1 st2 b2 res hrec1.1 h
          exact ⟨hfs2, by rw [hcnt, hrec1.2]⟩
    · rw [hmt] at h
      rcases tmopt with _ | tm
      · exact ih b st st2 b2 res hfs h
      · exact ih _ st st2 b2 res hfs h

theorem execPrereqsF_mono (recur : String → St → ExecRes) (w : World)
    (args : Args) (tmopt : Option Nat) :
    ∀ (ps : List String) (st st2 : St) (b2 : Bool)
      (res : Except MakeError Unit),
      execPrereqsF recur w args tmopt ps true st = .done st2 b2 res →
      b2 = true := by
  intro ps
  induction ps with
  | nil =>
    intro st st2 b2 res h
    simp only [execPrereqsF] at h
    cases h
    rfl
  | cons p ps ih =>
    intro st st2 b2 res h
    simp only [execPrereqsF] at h
    split at h
    · rcases hcall : recur p st with s | s | ⟨st1, r1⟩ <;> rw [hcall] at h
      · exact absurd h (by simp)
      · exact absurd h (by simp)
      · rcases r1 with e1 | u1
        · cases h; rfl
        · exact ih st1 st2 b2 res h
    · rcases hmt : get_mtime w args st.fs p with _ | pm <;> rw [hmt] at h
      · rcases hcall : recur p st with s | s | ⟨st1, r1⟩ <;> rw [hcall] at h
        · exact absurd h (by simp)
        · exact absurd h (by simp)
        · rcases r1 with e1 | u1
          · cases h; rfl
          · exact ih st1 st2 b2 res h
      · rcases tmopt with _ | tm
        · exact ih st st2 b2 res h
        · have h2 : execPrereqsF recur w args (some tm) ps true st
              = .done st2 b2 res := by
            have hb : (true || decide (tm < pm)) = true := by simp
            rw [← hb]
            exact h
          exact ih st st2 b2 res h2

theorem execPrereqsF_trigger (recur : String → St → ExecRes) (w : World)
    (args : Args) (fs0 : FS) (tm : Nat)
    (ham : args.always_make = false) :
    ∀ (ps : List String) (p : String) (pm : Nat) (b : Bool) (st st2 : St)
      (b2 : Bool),
      st.fs = fs0 →
      p ∈ ps →
      get_mtime w args fs0 p = some pm →
      tm < pm →
      execPrereqsF recur w args (some tm) ps b st = .done st2 b2 (.ok ()) →
      b2 = true := by
  intro ps
  induction ps with
  | nil =>
    intro p pm b st st2 b2 _ hmem
    simp at hmem
  | cons q ps ih =>
    intro p pm b st st2 b2 hfs hmem hpm hgt h
    simp only [execPrereqsF] at h
    have hamF : ¬ (args.always_make = true) := by rw [ham]; simp
    rw [if_neg hamF, hfs] at h
    by_cases hqp : q = p
    · subst hqp
      rw [hpm] at h
      have hb : (b || decide (tm < pm)) = true := by simp [hgt]
      have h2 : execPrereqsF recur w args (some tm) ps (b || decide (tm < pm)) st
          = LoopRes.done st2 b2 (Except.ok ()) := h
      rw [hb] at h2
      exact execPrereqsF_mono recur w args (some tm) ps st st2 b2 _ h2
    · have hmem2 : p ∈ ps := by
        rcases List.mem_cons.1 hmem with h2 | h2
        · exact absurd h2.symm hqp
        · exact h2
      rcases hmt : get_mtime w args fs0 q with _ | qm
      · rw [hmt] at h
        rcases hcall : recur q st with s | s | ⟨st1, r1⟩ <;> rw [hcall] at h
        · exact absurd h (by simp)
        · exact absurd h (by simp)
        · rcases r1 with e1 | u1
          · cases h
          · exact execPrereqsF_mono recur w args (some tm) ps st1 st2 b2 _ h
      · rw [hmt] at h
        exact ih p pm _ st st2 b2 hfs hmem2 hpm hgt h

theorem execRulesF_static (recur : String → St → ExecRes) (mk : Makefile)
    (w : World) (rules : List Rule) (P : String) (tmopt : Option Nat)
    (fs0 : FS) (T : String) (i : Nat)
    (hst : StaticRun w)
    (ham : mk.args.always_make = false)
    (hrec : ∀ (q : String) (st1 st2 : St) (r2 : Except MakeError Unit),
      st1.fs = fs0 → get_mtime w mk.args fs0 q = none →
      recur q st1 = .done st2 r2 →
      st2.fs = fs0 ∧ st2.events.count (Event.runRecipe T i)
        = st1.events.count (Event.runRecipe T i)) :
    ∀ (js : List Nat) (b : Bool) (st st2 : St) (b2 : Bool)
      (res : Except MakeError Unit),
      st.fs = fs0 →
      (∀ j ∈ js, ¬(P = T ∧ j = i)) →
      execRulesF recur mk w rules P tmopt js b st = .done st2 b2 res →
      st2.fs = fs0 ∧ st2.events.count (Event.runRecipe T i)
        = st.events.count (Event.runRecipe T i) := by
  intro js
  induction js with
  | nil =>
    intro b st st2 b2 res hfs _ h
    simp only [execRulesF] at h
    cases h
    exact ⟨hfs, rfl⟩
  | cons j js ih =>
    intro b st st2 b2 res hfs hne h
    simp only [execRulesF] at h
    rcases hpre : execPrereqsF recur w mk.args tmopt
        (rules.getD j dummyRule).prerequisites mk.args.always_make st
      with s | s | ⟨st1, b1, r1⟩ <;> rw [hpre] at h
    · exact absurd h (by simp)
    · exact absurd h (by simp)
    · have h1 := execPrereqsF_static recur w mk.args tmopt fs0 T i ham hrec
        _ _ st st1 b1 r1 hfs hpre
      rcases r1 with e1 | u1
      · cases h
        exact h1
      · have hone : ([Event.runRecipe P j].count (Event.runRecipe T i)) = 0 := by
          rw [List.count_eq_zero]
          intro hmem
          have h3 : Event.runRecipe T i = Event.runRecipe P j := by
            simpa using hmem
          injection h3 with hPT hji
          exact hne j (by simp) ⟨hPT.symm, hji.symm⟩
        have h' : (if (tmopt.isNone || b1) = true then
            (match (rules.getD j dummyRule).execute mk w
                (st1.addEvent (Event.runRecipe P j)) with
              | ExecRes.panic s => LoopRes.panic s
              | ExecRes.fuelOut s => LoopRes.fuelOut s
              | ExecRes.done st3 (Except.error e) =>
                  LoopRes.done st3 b (Except.error e)
              | ExecRes.done st3 (Except.ok a) =>
                  execRulesF recur mk w rules P tmopt js true st3)
            else execRulesF recur mk w rules P tmopt js b st1)
            = LoopRes.done st2 b2 res := h
        by_cases hcond : (tmopt.isNone || b1) = true
        · rw [if_pos hcond] at h'
          rcases hex : (rules.getD j dummyRule).execute mk w
              (st1.addEvent (Event.runRecipe P j)) with s | s | ⟨stE, rE⟩
            <;> rw [hex] at h'
          · exact absurd h' (by simp)
          · exact absurd h' (by simp)
          · have h2 := rule_execute_static_count mk w (rules.getD j dummyRule)
              T i hst _ _ _ hex
            have hfsE : stE.fs = fs0 := by
              rw [h2.1]
              exact h1.1
            have hcntE : stE.events.count (Event.runRecipe T i)
                = st.events.count (Event.runRecipe T i) := by
              rw [h2.2, St.addEvent_events, List.count_append, h1.2, hone,
                Nat.add_zero]
            rcases rE with eE | uE
            · cases h'
              exact ⟨hfsE, hcntE⟩
            · obtain ⟨hf3, hc3⟩ := ih true stE st2 b2 res hfsE
                (fun j2 hj2 => hne j2 (by simp [hj2])) h'
              exact ⟨hf3, by rw [hc3, hcntE]⟩
        · rw [if_neg hcond] at h'
          obtain ⟨hf3, hc3⟩ := ih b st1 st2 b2 res h1.1
            (fun j2 hj2 => hne j2 (by simp [hj2])) h'
          exact ⟨hf3, by rw [hc3, h1.2]⟩

theorem execute_static_foreign (m : RuleMap) (mk : Makefile) (w : World)
    (fs0 : FS) (T : String) (i : Nat) (tm : Nat)
    (hst : StaticRun w)
    (ham : mk.args.always_make = false)
    (hT : get_mtime w mk.args fs0 T = some tm) :
    ∀ (fuel : Nat) (P : String) (st st2 : St) (res : Except MakeError Unit),
      P ≠ T → st.fs = fs0 →
      RuleMap.execute m mk w fuel P st = .done st2 res →
      st2.fs = fs0 ∧ st2.events.count (Event.runRecipe T i)
        = st.events.count (Event.runRecipe T i) := by
  intro fuel
  induction fuel with
  | zero =>
    intro P st st2 res hne hfs h
    rw [RuleMap.execute_zero] at h
    exact absurd h (by simp)
  | succ fuel ih =>
    intro P st st2 res hne hfs h
    rw [RuleMap.execute_succ] at h
    simp only [executeBody] at h
    rcases hlk : btLookup m.by_target P with _ | idxs <;> rw [hlk] at h
    · cases h
      exact ⟨hfs, rfl⟩
    · rw [hfs] at h
      have h0 : (if P ∈ mk.args.old_file then
            ExecRes.done (st.addEvent (Event.info (upToDateOldMsg P)))
              (Except.ok ())
          else
            match execRulesF (RuleMap.execute m mk w fuel) mk w m.rules P
                (get_mtime w mk.args fs0 P) idxs false st with
            | LoopRes.panic s => ExecRes.panic s
            | LoopRes.fuelOut s => ExecRes.fuelOut s
            | LoopRes.done st1 flag (Except.error e) =>
                ExecRes.done st1 (Except.error e)
            | LoopRes.done st1 executed (Except.ok a) =>
                if executed = true then ExecRes.done st1 (Except.ok ())
                else ExecRes.done (st1.addEvent (Event.info (upToDateMsg P)))
                  (Except.ok ()))
          = ExecRes.done st2 res := h
      clear h
      by_cases hold : P ∈ mk.args.old_file
      · rw [if_pos hold] at h0
        cases h0
        refine ⟨hfs, ?_⟩
        have hz : ([Event.info (upToDateOldMsg P)].count (Event.runRecipe T i))
            = 0 := by
          rw [List.count_eq_zero]
          simp
        rw [St.addEvent_events, List.count_append, hz, Nat.add_zero]
      · rw [if_neg hold] at h0
        have hrec : ∀ (q : String) (st1 st3 : St) (r2 : Except MakeError Unit),
            st1.fs = fs0 → get_mtime w mk.args fs0 q = none →
            RuleMap.execute m mk w fuel q st1 = .done st3 r2 →
            st3.fs = fs0 ∧ st3.events.count (Event.runRecipe T i)
              = st1.events.count (Event.runRecipe T i) := by
          intro q st1 st3 r2 hfs1 hq hcall
          have hqT : q ≠ T := by
            intro hEq
            rw [hEq, hT] at hq
            cases hq
          exact ih q st1 st3 r2 hqT hfs1 hcall
        rcases hrun : execRulesF (RuleMap.execute m mk w fuel) mk w m.rules P
            (get_mtime w mk.args fs0 P) idxs false st with s | s | ⟨st1, b1, r1⟩
          <;> rw [hrun] at h0
        · exact absurd h0 (by simp)
        · exact absurd h0 (by simp)
        · have h1 := execRulesF_static (RuleMap.execute m mk w fuel) mk w m.rules
            P (get_mtime w mk.args fs0 P) fs0 T i hst ham hrec idxs false st st1
            b1 r1 hfs (fun j _ hand => hne hand.1) hrun
          rcases r1 with e1 | u1
          · cases h0
            exact h1
          · have h' : (if b1 = true then ExecRes.done st1 (Except.ok ())
                else ExecRes.done (st1.addEvent (Event.info (upToDateMsg P)))
                  (Except.ok ())) = ExecRes.done st2 res := h0
            by_cases hb1 : b1 = true
            · rw [if_pos hb1] at h'
              cases h'
              exact h1
            · rw [if_neg hb1] at h'
              cases h'
              refine ⟨h1.1, ?_⟩
              have hz : ([Event.info (upToDateMsg P)].count (Event.runRecipe T i))
                  = 0 := by
                rw [List.count_eq_zero]
                simp
              rw [St.addEvent_events, List.count_append, hz, Nat.add_zero]
              exact h1.2

theorem execRulesF_count_once (recur : String → St → ExecRes) (mk : Makefile)
    (w : World) (rules : List Rule) (T : String) (fs0 : FS) (tm : Nat)
    (i : Nat) (p : String) (pm : Nat)
    (hst : StaticRun w)
    (ham : mk.args.always_make = false)
    (hrec : ∀ (q : String) (st1 st2 : St) (r2 : Except MakeError Unit),
      st1.fs = fs0 → get_mtime w mk.args fs0 q = none →
      recur q st1 = .done st2 r2 →
      st2.fs = fs0 ∧ st2.events.count (Event.runRecipe T i)
        = st1.events.count (Event.runRecipe T i))
    (hp : p ∈ (rules.getD i dummyRule).prerequisites)
    (hpm : get_mtime w mk.args fs0 p = some pm)
    (hgt : tm < pm) :
    ∀ (js : List Nat) (b : Bool) (st st2 : St) (b2 : Bool),
      st.fs = fs0 →
      js.count i = 1 →
      execRulesF recur mk w rules T (some tm) js b st = .done st2 b2 (.ok ()) →
      st2.events.count (Event.runRecipe T i)
        = st.events.count (Event.runRecipe T i) + 1 := by
  intro js
  induction js with
  | nil =>
    intro b st st2 b2 _ hcount
    simp at hcount
  | cons j js ih =>
    intro b st st2 b2 hfs hcount h
    rw [List.count_cons] at hcount
    simp only [execRulesF] at h
    rcases hpre : execPrereqsF recur w mk.args (some tm)
        (rules.getD j dummyRule).prerequisites mk.args.always_make st
      with s | s | ⟨st1, b1, r1⟩ <;> rw [hpre] at h
    · exact absurd h (by simp)
    · exact absurd h (by simp)
    · have h1 := execPrereqsF_static recur w mk.args (some tm) fs0 T i ham hrec
        _ _ st st1 b1 r1 hfs hpre
      rcases r1 with e1 | u1
      · exact absurd h (by simp)
      · have h' : (if (Option.isNone (some tm) || b1) = true then
            (match (rules.getD j dummyRule).execute mk w
                (st1.addEvent (Event.runRecipe T j)) with
              | ExecRes.panic s => LoopRes.panic s
              | ExecRes.fuelOut s => LoopRes.fuelOut s
              | ExecRes.done st3 (Except.error e) =>
                  LoopRes.done st3 b (Except.error e)
              | ExecRes.done st3 (Except.ok a) =>
                  execRulesF recur mk w rules T (some tm) js true st3)
            else execRulesF recur mk w rules T (some tm) js b st1)
            = LoopRes.done st2 b2 (Except.ok ()) := h
        by_cases hji : j = i
        · subst hji
          have hc0 : js.count j = 0 := by
            have hb : (j == j) = true := by simp
            rw [hb] at hcount
            simp at hcount
            omega
          have hb1 : b1 = true := execPrereqsF_trigger recur w mk.args fs0 tm ham
            (rules.getD j dummyRule).prerequisites p pm mk.args.always_make st
            st1 b1 hfs hp hpm hgt hpre
          have hcondT : (Option.isNone (some tm) || b1) = true := by
            rw [hb1]
            simp
          rw [if_pos hcondT] at h'
          rcases hex : (rules.getD j dummyRule).execute mk w
              (st1.addEvent (Event.runRecipe T j)) with s | s | ⟨stE, rE⟩
            <;> rw [hex] at h'
          · exact absurd h' (by simp)
          · exact absurd h' (by simp)
          · have h2 := rule_execute_static_count mk w (rules.getD j dummyRule)
              T j hst _ _ _ hex
            have hone : ([Event.runRecipe T j].count (Event.runRecipe T j)) = 1 := by
              simp
            have hfsE : stE.fs = fs0 := by
              rw [h2.1]
              exact h1.1
            have hcntE : stE.events.count (Event.runRecipe T j)
                = st.events.count (Event.runRecipe T j) + 1 := by
              rw [h2.2, St.addEvent_events, List.count_append, h1.2, hone]
            rcases rE with eE | uE
            · exact absurd h' (by simp)
            · have hnotin : j ∉ js := List.count_eq_zero.1 hc0
              obtain ⟨hf3, hc3⟩ := execRulesF_static recur mk w rules T (some tm)
                fs0 T j hst ham hrec js true stE st2 b2 _ hfsE
                (fun j2 hj2 hand => hnotin (hand.2 ▸ hj2)) h'
              rw [hc3, hcntE]
        · have hc1 : js.count i = 1 := by
            have hb : (j == i) = false := by simpa using hji
            rw [hb] at hcount
            simpa using hcount
          have hone0 : ([Event.runRecipe T j].count (Event.runRecipe T i)) = 0 := by
            rw [List.count_eq_zero]
            intro hmem
            have h3 : Event.runRecipe T i = Event.runRecipe T j := by
              simpa using hmem
            injection h3 with hTT hji2
            exact hji hji2.symm
          by_cases hcond : (Option.isNone (some tm) || b1) = true
          · rw [if_pos hcond] at h'
            rcases hex : (rules.getD j dummyRule).execute mk w
                (st1.addEvent (Event.runRecipe T j)) with s | s | ⟨stE, rE⟩
              <;> rw [hex] at h'
            · exact absurd h' (by simp)
            · exact absurd h' (by simp)
            · have h2 := rule_execute_static_count mk w (rules.getD j dummyRule)
                T i hst _ _ _ hex
              have hfsE : stE.fs = fs0 := by
                rw [h2.1]
                exact h1.1
              have hcntE : stE.events.count (Event.runRecipe T i)
                  = st.events.count (Event.runRecipe T i) := by
                rw [h2.2, St.addEvent_events, List.count_append, h1.2, hone0,
                  Nat.add_zero]
              rcases rE with eE | uE
              · exact absurd h' (by simp)
              · have hrec2 := ih true stE st2 b2 hfsE hc1 h'
                rw [hrec2, hcntE]
          · rw [if_neg hcond] at h'
            have hrec2 := ih b st1 st2 b2 h1.1 hc1 h'
            rw [hrec2, h1.2]

/-- C2 (amended): for a target `T` with a rule entry, a resolvable timestamp,
not in the forced-old set, with `always_make` off, under a world whose
processes leave the filesystem unchanged: if handle `i` occurs exactly once
in `T`'s handle list, rule `i` has a prerequisite whose resolved timestamp is
strictly newer than `T`'s, and the resolution call returns success, then rule
`i`'s recipe is executed for `T` exactly once during that call (the count of
its recipe-execution events grows by exactly one). The original claim — with
no success, uniqueness, forced-old or static-filesystem provisos — is
refuted by the counterexample. -/
theorem recipe_exactly_once_amended (m : RuleMap) (mk : Makefile) (w : World)
    (fuel : Nat) (T : String) (st st2 : St) (idxs : List Nat) (i : Nat)
    (tm pm : Nat) (p : String)
    (hst : StaticRun w)
    (ham : mk.args.always_make = false)
    (hlk : btLookup m.by_target T = some idxs)
    (hold : T ∉ mk.args.old_file)
    (htm : get_mtime w mk.args st.fs T = some tm)
    (hcount : idxs.count i = 1)
    (hp : p ∈ (m.rules.getD i dummyRule).prerequisites)
    (hpm : get_mtime w mk.args st.fs p = some pm)
    (hgt : tm < pm)
    (hrun : RuleMap.execute m mk w (fuel + 1) T st = .done st2 (.ok ())) :
    st2.events.count (Event.runRecipe T i)
      = st.events.count (Event.runRecipe T i) + 1 := by
  rw [RuleMap.execute_succ] at hrun
  simp only [executeBody, hlk] at hrun
  rw [htm, if_neg hold] at hrun
  have hrec : ∀ (q : String) (st1 st3 : St) (r2 : Except MakeError Unit),
      st1.fs = st.fs → get_mtime w mk.args st.fs q = none →
      RuleMap.execute m mk w fuel q st1 = .done st3 r2 →
      st3.fs = st.fs ∧ st3.events.count (Event.runRecipe T i)
        = st1.events.count (Event.runRecipe T i) := by
    intro q st1 st3 r2 hfs1 hq hcall
    have hqT : q ≠ T := by
      intro hEq
      rw [hEq, htm] at hq
      cases hq
    exact execute_static_foreign m mk w st.fs T i tm hst ham htm fuel q st1 st3
      r2 hqT hfs1 hcall
  rcases hrunL : execRulesF (RuleMap.execute m mk w fuel) mk w m.rules T
      (some tm) idxs false st with s | s | ⟨st1, b1, r1⟩ <;> rw [hrunL] at hrun
  · exact absurd hrun (by simp)
  · exact absurd hrun (by simp)
  · rcases r1 with e1 | u1
    · exact absurd hrun (by simp)
    · have hcnt1 := execRulesF_count_once (RuleMap.execute m mk w fuel) mk w
        m.rules T st.fs tm i p pm hst ham hrec hp hpm hgt idxs false st st1 b1
        rfl hcount hrunL
      have h' : (if b1 = true then ExecRes.done st1 (Except.ok ())
          else ExecRes.done (st1.addEvent (Event.info (upToDateMsg T)))
            (Except.ok ())) = ExecRes.done st2 (Except.ok ()) := hrun
      by_cases hb1 : b1 = true
      · rw [if_pos hb1] at h'
        cases h'
        exact hcnt1
      · rw [if_neg hb1] at h'
        cases h'
        rw [St.addEvent_events, List.count_append]
        have hz : ([Event.info (upToDateMsg T)].count (Event.runRecipe T i))
            = 0 := by
          rw [List.count_eq_zero]
          simp
        rw [hz, Nat.add_zero]
        exact hcnt1

/-- C2 counterexample: a double-colon rule listing target `T` twice is
retained as two handles `[0, 0]`; with prerequisite `P` strictly newer than
`T` and `always_make` off, the (successful) resolution call runs that rule's
recipe twice, not exactly once as claimed. -/
theorem recipe_twice_counterexample :
    btLookup mDup.by_target "T" = some [0, 0] ∧
    get_mtime wStatic0 mkPlain.args stTP.fs "T" = some 5 ∧
    mkPlain.args.always_make = false ∧
    ("T" ∉ mkPlain.args.old_file) ∧
    ("P" ∈ (mDup.rules.getD 0 dummyRule).prerequisites
      ∧ get_mtime wStatic0 mkPlain.args stTP.fs "P" = some 10 ∧ (5 : Nat) < 10) ∧
    (RuleMap.execute mDup mkPlain wStatic0 2 "T" stTP).isOkB = true ∧
    ((RuleMap.execute mDup mkPlain wStatic0 2 "T" stTP).eventsOf).map
      (fun evts => evts.count (Event.runRecipe "T" 0)) = some 2 :=
  ⟨by decide, by decide, rfl, by decide, ⟨by decide, by decide, by decide⟩,
    by decide, by decide⟩

/-- C2 amended witness: for the single rule `T: P` with `P` newer, the
successful call executes the recipe exactly once. -/
theorem recipe_exactly_once_amended_witness :
    (⟨fsTP, [Event.runRecipe "T" 0, Event.echo "r", Event.spawn "r"]⟩
        : St).events.count (Event.runRecipe "T" 0)
      = stTP.events.count (Event.runRecipe "T" 0) + 1 :=
  recipe_exactly_once_amended mSingle mkPlain wStatic0 0 "T" stTP
    ⟨fsTP, [Event.runRecipe "T" 0, Event.echo "r", Event.spawn "r"]⟩ [0] 0 5 10
    "P" (fun _ _ _ _ => rfl) rfl (by decide) (by decide) (by decide) (by decide)
    (by decide) (by decide) (by decide) rfl
end Omake
